import Mathlib

/-!
Verification of the reliable message-queue subsystem of the
`enhanced-chat-system` repository, shallowly embedded from
`src/message_queue.py`, `src/redis_message_queue.py`,
`src/adaptive_smol_processor.py` and `src/advanced_adaptive_processor.py`.

Modelling conventions:
* Python `int` is embedded as `Int`; machine overflow does not arise.
* Python `float` quantities used by the adaptive controller are embedded
  as `Rat` (exact arithmetic over the control rules' constants).
* A `datetime` value is represented by its ISO-8601 rendering (a string),
  since `datetime.fromisoformat` inverts `datetime.isoformat` exactly.
* A JSON-serializable payload (`Dict[str, Any]`) is represented by a
  `Json` value tree.
* A Python `dict` is represented by an association list with the same
  operational behaviour (`hget`/`hset`/`hdel` below): lookup of the most
  recently set binding, in-place overwrite, deletion of the key.
* `random.uniform` draws are passed in as explicit sample arguments.
-/

/-- JSON value trees: the wire representation of message payloads. -/
inductive Json where
  | null : Json
  | bool : Bool → Json
  | num : Int → Json
  | str : String → Json
  | arr : List Json → Json
  | obj : List (String × Json) → Json

/-- The `Message` dataclass of `src/message_queue.py` (and identically of
`src/redis_message_queue.py`): id, payload, timestamp, retries
(default 0) and max_retries (default 3). -/
structure Message where
  id : String
  payload : Json
  timestamp : String
  retries : Int := 0
  max_retries : Int := 3

/-- Python dict lookup (`d[k]` / `k in d`): the binding of `k`, if any. -/
def hget (l : List (String × Message)) (k : String) : Option Message :=
  match l with
  | [] => none
  | (k1, v) :: rest => if k1 = k then some v else hget rest k

/-- Python dict assignment `d[k] = v`: overwrite in place when the key is
present, append a fresh binding otherwise. -/
def hset (l : List (String × Message)) (k : String) (v : Message) :
    List (String × Message) :=
  if l.any (fun p => p.1 = k) then
    l.map (fun p => if p.1 = k then (k, v) else p)
  else
    l ++ [(k, v)]

/-- Python dict deletion `del d[k]`. -/
def hdel (l : List (String × Message)) (k : String) :
    List (String × Message) :=
  l.filter (fun p => p.1 ≠ k)

/-- The state of `MessageQueue` (`src/message_queue.py`, lines 19-23):
`queue` is the pending FIFO list, `processing` the id-keyed map of
checked-out messages, `dead_letter` the terminal list. -/
structure MessageQueue where
  queue : List Message
  processing : List (String × Message)
  dead_letter : List Message

/-- `MessageQueue.__init__`: all three collections empty. -/
def MessageQueue.init : MessageQueue :=
  ⟨[], [], []⟩

/-- `MessageQueue.enqueue` (lines 25-27): unconditionally appends the
message to the pending tail; the source performs no validation. -/
def MessageQueue.enqueue (q : MessageQueue) (m : Message) : MessageQueue :=
  { q with queue := q.queue ++ [m] }

/-- `MessageQueue.dequeue` (lines 29-35): pops the pending head into
`processing` keyed by its id; returns `none` on an empty pending list. -/
def MessageQueue.dequeue (q : MessageQueue) : Option Message × MessageQueue :=
  match q.queue with
  | [] => (none, q)
  | m :: rest =>
      (some m, { q with queue := rest, processing := hset q.processing m.id m })

/-- `MessageQueue.ack` (lines 37-40): deletes the id from `processing`
when present; otherwise does nothing. -/
def MessageQueue.ack (q : MessageQueue) (id : String) : MessageQueue :=
  if (hget q.processing id).isSome then
    { q with processing := hdel q.processing id }
  else
    q

/-- `MessageQueue.nack` (lines 42-54): when the id is checked out,
increments its retries; at or beyond `max_retries` the message goes to
the dead-letter tail, otherwise back to the pending tail; either way the
id leaves `processing`. Absent ids are ignored. -/
def MessageQueue.nack (q : MessageQueue) (id : String) : MessageQueue :=
  match hget q.processing id with
  | none => q
  | some m =>
      let m1 := { m with retries := m.retries + 1 }
      if m1.retries ≥ m1.max_retries then
        { q with dead_letter := q.dead_letter ++ [m1],
                 processing := hdel q.processing id }
      else
        { q with queue := q.queue ++ [m1],
                 processing := hdel q.processing id }

/-- One external queue operation. -/
inductive Op where
  | enqueue (m : Message)
  | dequeue
  | ack (id : String)
  | nack (id : String)

/-- Apply one operation to a queue state. -/
def step (q : MessageQueue) : Op → MessageQueue
  | .enqueue m => q.enqueue m
  | .dequeue => (q.dequeue).2
  | .ack id => q.ack id
  | .nack id => q.nack id

/-- The state reached from the empty initial state by a sequence of
operations. -/
def run (ops : List Op) : MessageQueue :=
  ops.foldl step MessageQueue.init

/-- Ids currently in the pending collection. -/
def pendingIds (q : MessageQueue) : List String :=
  q.queue.map Message.id

/-- Ids currently checked out in `processing`. -/
def procIds (q : MessageQueue) : List String :=
  q.processing.map Prod.fst

/-- Ids currently in the dead-letter collection. -/
def deadIds (q : MessageQueue) : List String :=
  q.dead_letter.map Message.id

/-- All ids present anywhere in the queue state. -/
def allIds (q : MessageQueue) : List String :=
  pendingIds q ++ procIds q ++ deadIds q

/-- The ids of the messages enqueued by a sequence of operations. -/
def enqIds (ops : List Op) : List String :=
  ops.filterMap (fun op => match op with
    | .enqueue m => some m.id
    | _ => none)

/-! Basic dictionary lemmas. -/

theorem hget_hdel_self (l : List (String × Message)) (k : String) :
    hget (hdel l k) k = none := by
  induction l with
  | nil => rfl
  | cons p rest ih =>
      by_cases h : p.1 = k
      · simpa [hdel, h] using ih
      · simpa [hdel, hget, h] using ih

theorem hget_mem (l : List (String × Message)) (k : String) (m : Message)
    (h : hget l k = some m) : (k, m) ∈ l := by
  induction l with
  | nil => simp [hget] at h
  | cons p rest ih =>
      obtain ⟨k1, v⟩ := p
      by_cases hk : k1 = k
      · subst hk
        simp only [hget, if_pos rfl] at h
        injection h with h2
        subst h2
        exact List.mem_cons_self _ _
      · simp only [hget, hk, if_neg, not_false_iff] at h
        exact List.mem_cons_of_mem _ (ih h)

/-! Concrete states used as witnesses and counterexamples. -/

/-- A well-formed sample message. -/
def msgA : Message :=
  { id := "a", payload := .null, timestamp := "2024-01-01T00:00:00" }

/-- A second message sharing `msgA`'s id: the duplicate-id hazard. -/
def msgA2 : Message :=
  { id := "a", payload := .bool true, timestamp := "2024-01-01T00:00:01" }

/-- A message enqueued with `retries` already beyond `max_retries`. -/
def msgHot : Message :=
  { id := "h", payload := .null, timestamp := "2024-01-01T00:00:02",
    retries := 5, max_retries := 3 }

/-- A message whose id is the empty string. -/
def msgNoId : Message :=
  { id := "", payload := .null, timestamp := "2024-01-01T00:00:03" }

/-- A queue state with `msgA` checked out in `processing`. -/
def qexProc : MessageQueue :=
  { queue := [], processing := [("a", msgA)], dead_letter := [] }

/-- C1: `nack(id)` on an id present in `processing` increments the
message's retries; when the new count reaches `max_retries` the message
is appended to the dead-letter tail, otherwise to the pending tail, and
the id leaves `processing` in both cases; `nack` on an absent id changes
nothing. Embeds `MessageQueue.nack`, `src/message_queue.py` lines 42-54. -/
theorem nack_spec (q : MessageQueue) (id : String) :
    (hget q.processing id = none → q.nack id = q) ∧
    (∀ m, hget q.processing id = some m →
      (q.nack id).processing = hdel q.processing id ∧
      (m.retries + 1 ≥ m.max_retries →
        (q.nack id).dead_letter
            = q.dead_letter ++ [{ m with retries := m.retries + 1 }] ∧
        (q.nack id).queue = q.queue) ∧
      (m.retries + 1 < m.max_retries →
        (q.nack id).queue = q.queue ++ [{ m with retries := m.retries + 1 }] ∧
        (q.nack id).dead_letter = q.dead_letter)) := by
  constructor
  · intro h
    simp [MessageQueue.nack, h]
  · intro m hm
    by_cases hc : m.retries + 1 ≥ m.max_retries
    · simp [MessageQueue.nack, hm, hc]
    · simp only [MessageQueue.nack, hm]
      rw [if_neg (by simpa using hc)]
      refine ⟨rfl, fun hge => absurd hge hc, fun _ => ⟨rfl, rfl⟩⟩

/-- Witness for C1 at a concrete state: nacking `msgA` (retries 0,
max_retries 3) moves it back to pending with retries 1 and empties
`processing`. -/
theorem nack_spec_witness :
    (qexProc.nack "a").queue = [{ msgA with retries := 1 }] ∧
    (qexProc.nack "a").processing = hdel qexProc.processing "a" ∧
    (qexProc.nack "a").dead_letter = [] := by
  have h := (nack_spec qexProc "a").2 msgA rfl
  have h2 := h.2.2 (by decide)
  exact ⟨h2.1, h.1, h2.2⟩

/-- C3: `ack(id)` removes a present id from `processing` and touches
nothing else; on an absent id it raises nothing and changes no state, so
acking twice equals acking once. Embeds `MessageQueue.ack`,
`src/message_queue.py` lines 37-40. -/
theorem ack_spec (q : MessageQueue) (id : String) :
    ((hget q.processing id).isSome →
        q.ack id = { q with processing := hdel q.processing id }) ∧
    (hget q.processing id = none → q.ack id = q) ∧
    (q.ack id).ack id = q.ack id := by
  refine ⟨fun h => ?_, fun h => ?_, ?_⟩
  · simp [MessageQueue.ack, h]
  · simp [MessageQueue.ack, h]
  · by_cases h : (hget q.processing id).isSome
    · have h1 : q.ack id = { q with processing := hdel q.processing id } := by
        simp [MessageQueue.ack, h]
      rw [h1]
      simp [MessageQueue.ack, hget_hdel_self]
    · have h1 : q.ack id = q := by
        simp [MessageQueue.ack, h]
      rw [h1, h1]

/-- Witness for C3 at concrete states: acking the checked-out id "a"
deletes it from `processing`; acking the absent id "b" changes nothing;
double-ack of "a" equals a single ack. -/
theorem ack_spec_witness :
    qexProc.ack "a" = { qexProc with processing := hdel qexProc.processing "a" } ∧
    qexProc.ack "b" = qexProc ∧
    (qexProc.ack "a").ack "a" = qexProc.ack "a" :=
  ⟨(ack_spec qexProc "a").1 rfl, (ack_spec qexProc "b").2.1 rfl,
    (ack_spec qexProc "a").2.2⟩

/-- C5: from any state with an empty pending list, `enqueue(m)` followed
immediately by `dequeue()` returns a message (not `none`) with the same
id and payload as `m`. Embeds `MessageQueue.enqueue`/`dequeue`,
`src/message_queue.py` lines 25-35. -/
theorem enqueue_dequeue_round_trip (q : MessageQueue) (m : Message)
    (h : q.queue = []) :
    ∃ r, ((q.enqueue m).dequeue).1 = some r ∧
      r.id = m.id ∧ r.payload = m.payload := by
  refine ⟨m, ?_, rfl, rfl⟩
  simp [MessageQueue.enqueue, MessageQueue.dequeue, h]

/-- Witness for C5: the round trip at the empty initial state and `msgA`. -/
theorem enqueue_dequeue_round_trip_witness :
    MessageQueue.init.queue = [] ∧
    ∃ r, ((MessageQueue.init.enqueue msgA).dequeue).1 = some r ∧
      r.id = msgA.id ∧ r.payload = msgA.payload :=
  ⟨rfl, enqueue_dequeue_round_trip MessageQueue.init msgA rfl⟩

/-- C6, counterexample: the source performs no validation at `enqueue`.
Enqueuing the message with empty id into the empty queue raises no
failure (the operation is total) and the message lands in `pending`,
contradicting the claim that it never enters the queue. -/
theorem enqueue_empty_id_cex :
    (MessageQueue.init.enqueue msgNoId).queue = [msgNoId] ∧
    msgNoId.id = "" :=
  ⟨rfl, rfl⟩

/-- C6, amended: `enqueue` validates nothing — every message, with an
empty id or not, is appended to the pending tail, and `processing` and
`dead_letter` are untouched. Embeds `MessageQueue.enqueue`,
`src/message_queue.py` lines 25-27. -/
theorem enqueue_no_validation (q : MessageQueue) (m : Message) :
    m ∈ (q.enqueue m).queue ∧
    (q.enqueue m).queue = q.queue ++ [m] ∧
    (q.enqueue m).processing = q.processing ∧
    (q.enqueue m).dead_letter = q.dead_letter :=
  ⟨by simp [MessageQueue.enqueue], rfl, rfl, rfl⟩

/-! Permutation helpers for moving an id across the three collections. -/

theorem nodup_perm_filter (l : List String) (a : String) (hn : l.Nodup)
    (ha : a ∈ l) : List.Perm l (a :: l.filter (fun s => s ≠ a)) := by
  induction l with
  | nil => cases ha
  | cons b rest ih =>
      rcases List.mem_cons.mp ha with rfl | ha2
      · have hnotin : a ∉ rest := (List.nodup_cons.mp hn).1
        have hfix : rest.filter (fun s => s ≠ a) = rest :=
          List.filter_eq_self.mpr (fun x hx => by
            simp only [decide_eq_true_eq]
            rintro rfl
            exact hnotin hx)
        have hhead : (a :: rest).filter (fun s => s ≠ a)
            = rest.filter (fun s => s ≠ a) := by
          rw [List.filter_cons_of_neg]
          simp
        rw [hhead, hfix]
      · have hba : b ≠ a := by
          rintro rfl
          exact (List.nodup_cons.mp hn).1 ha2
        have h2 := ih (List.nodup_cons.mp hn).2 ha2
        have hhead : (b :: rest).filter (fun s => s ≠ a)
            = b :: rest.filter (fun s => s ≠ a) := by
          rw [List.filter_cons_of_pos]
          simp [hba]
        rw [hhead]
        exact (h2.cons b).trans (List.Perm.swap a b _)

theorem perm_extract_left (p r d : List String) (x : String) :
    List.Perm ((p ++ [x]) ++ r ++ d) (x :: (p ++ r ++ d)) := by
  have h1 : (p ++ [x]) ++ r ++ d = p ++ x :: (r ++ d) := by
    simp [List.append_assoc]
  have h2 : x :: (p ++ r ++ d) = x :: (p ++ (r ++ d)) := by
    simp [List.append_assoc]
  rw [h1, h2]
  exact List.perm_middle

theorem perm_extract_mid (p r d : List String) (x : String) :
    List.Perm (p ++ (r ++ [x]) ++ d) (x :: (p ++ r ++ d)) := by
  have h1 : p ++ (r ++ [x]) ++ d = (p ++ r) ++ x :: d := by
    simp [List.append_assoc]
  have h2 : x :: (p ++ r ++ d) = x :: ((p ++ r) ++ d) := by
    simp [List.append_assoc]
  rw [h1, h2]
  exact List.perm_middle

theorem perm_extract_right (p r d : List String) (x : String) :
    List.Perm (p ++ r ++ (d ++ [x])) (x :: (p ++ r ++ d)) := by
  have h1 : p ++ r ++ (d ++ [x]) = (p ++ r ++ d) ++ x :: [] := by
    simp [List.append_assoc]
  have h2 : List.Perm ((p ++ r ++ d) ++ x :: []) (x :: ((p ++ r ++ d) ++ [])) :=
    List.perm_middle
  rw [h1]
  simpa using h2

theorem perm_cons_mid (p r d : List String) (x : String) :
    List.Perm (p ++ (x :: r) ++ d) (x :: (p ++ r ++ d)) := by
  have h1 : p ++ (x :: r) ++ d = p ++ x :: (r ++ d) := by
    simp [List.append_assoc]
  have h2 : x :: (p ++ r ++ d) = x :: (p ++ (r ++ d)) := by
    simp [List.append_assoc]
  rw [h1, h2]
  exact List.perm_middle

/-! Dictionary update lemmas. -/

theorem map_fst_hdel (l : List (String × Message)) (k : String) :
    (hdel l k).map Prod.fst = (l.map Prod.fst).filter (fun s => s ≠ k) := by
  induction l with
  | nil => rfl
  | cons p rest ih =>
      by_cases h : p.1 = k
      · have hd : hdel (p :: rest) k = hdel rest k := by
          simp [hdel, List.filter_cons, h]
        have hf : (p.1 :: rest.map Prod.fst).filter (fun s => s ≠ k)
            = (rest.map Prod.fst).filter (fun s => s ≠ k) := by
          rw [List.filter_cons_of_neg]
          simp [h]
        rw [hd, List.map_cons, hf]
        exact ih
      · have hd : hdel (p :: rest) k = p :: hdel rest k := by
          simp [hdel, List.filter_cons, h]
        have hf : (p.1 :: rest.map Prod.fst).filter (fun s => s ≠ k)
            = p.1 :: (rest.map Prod.fst).filter (fun s => s ≠ k) := by
          rw [List.filter_cons_of_pos]
          simp [h]
        rw [hd, List.map_cons, List.map_cons, hf, ih]

theorem hset_fresh (l : List (String × Message)) (k : String) (v : Message)
    (h : k ∉ l.map Prod.fst) : hset l k v = l ++ [(k, v)] := by
  rw [hset, if_neg]
  intro hc
  rcases List.any_eq_true.mp hc with ⟨p, hp, he⟩
  exact h (by
    have : p.1 = k := by simpa using he
    exact this ▸ List.mem_map_of_mem Prod.fst hp)

theorem mem_hdel (l : List (String × Message)) (k : String)
    (p : String × Message) (h : p ∈ hdel l k) : p ∈ l :=
  List.mem_of_mem_filter h

/-! The reachability invariant behind the disjointness property. -/

/-- Every `processing` binding keys a message by that message's own id. -/
def KeysOk (q : MessageQueue) : Prop :=
  ∀ p ∈ q.processing, p.1 = p.2.id

/-- The inductive invariant: all ids across the three collections are
distinct, and `processing` keys agree with the stored messages. -/
def QInv (q : MessageQueue) : Prop :=
  (allIds q).Nodup ∧ KeysOk q

theorem qinv_enqueue (q : MessageQueue) (m : Message) (h : QInv q)
    (hm : m.id ∉ allIds q) :
    QInv (q.enqueue m) ∧
    ∀ i ∈ allIds (q.enqueue m), i ∈ allIds q ∨ i = m.id := by
  have hperm : List.Perm (allIds (q.enqueue m)) (m.id :: allIds q) := by
    have he : allIds (q.enqueue m)
        = (pendingIds q ++ [m.id]) ++ procIds q ++ deadIds q := by
      simp [allIds, pendingIds, procIds, deadIds, MessageQueue.enqueue]
    rw [he, allIds]
    exact perm_extract_left _ _ _ _
  refine ⟨⟨hperm.nodup_iff.mpr (List.nodup_cons.mpr ⟨hm, h.1⟩), ?_⟩, ?_⟩
  · intro p hp
    exact h.2 p hp
  · intro i hi
    rcases List.mem_cons.mp (hperm.mem_iff.mp hi) with heq | hin
    · exact Or.inr heq
    · exact Or.inl hin

theorem qinv_dequeue (q : MessageQueue) (h : QInv q) :
    QInv (q.dequeue).2 ∧ ∀ i ∈ allIds (q.dequeue).2, i ∈ allIds q := by
  obtain ⟨qu, pr, dl⟩ := q
  cases qu with
  | nil => exact ⟨h, fun i hi => hi⟩
  | cons m rest =>
      have hall : allIds ⟨m :: rest, pr, dl⟩
          = m.id :: (rest.map Message.id ++ pr.map Prod.fst ++ dl.map Message.id) := by
        simp [allIds, pendingIds, procIds, deadIds]
      have hnd := h.1
      rw [hall] at hnd
      have hnotin := (List.nodup_cons.mp hnd).1
      have hproc : m.id ∉ pr.map Prod.fst := by
        intro hc
        exact hnotin (by simp [hc])
      have hs : hset pr m.id m = pr ++ [(m.id, m)] := hset_fresh pr m.id m hproc
      have hd2 : ((⟨m :: rest, pr, dl⟩ : MessageQueue).dequeue).2
          = ⟨rest, pr ++ [(m.id, m)], dl⟩ := by
        simp [MessageQueue.dequeue, hs]
      rw [hd2]
      have hperm : List.Perm (allIds ⟨rest, pr ++ [(m.id, m)], dl⟩)
          (m.id :: (rest.map Message.id ++ pr.map Prod.fst ++ dl.map Message.id)) := by
        have he : allIds ⟨rest, pr ++ [(m.id, m)], dl⟩
            = rest.map Message.id ++ (pr.map Prod.fst ++ [m.id]) ++ dl.map Message.id := by
          simp [allIds, pendingIds, procIds, deadIds]
        rw [he]
        exact perm_extract_mid _ _ _ _
      refine ⟨⟨?_, ?_⟩, ?_⟩
      · rw [show allIds ⟨rest, pr ++ [(m.id, m)], dl⟩
            = allIds ⟨rest, pr ++ [(m.id, m)], dl⟩ from rfl]
        exact hperm.nodup_iff.mpr (hall ▸ h.1)
      · intro p hp
        rcases List.mem_append.mp hp with hin | hin
        · exact h.2 p hin
        · have : p = (m.id, m) := by simpa using hin
          rw [this]
      · intro i hi
        have := hperm.mem_iff.mp hi
        rw [hall]
        exact this

theorem qinv_ack (q : MessageQueue) (id : String) (h : QInv q) :
    QInv (q.ack id) ∧ ∀ i ∈ allIds (q.ack id), i ∈ allIds q := by
  by_cases hc : (hget q.processing id).isSome
  · have ha : q.ack id = { q with processing := hdel q.processing id } := by
      simp [MessageQueue.ack, hc]
    rw [ha]
    have hsub : List.Sublist (allIds { q with processing := hdel q.processing id })
        (allIds q) := by
      have he : allIds { q with processing := hdel q.processing id }
          = pendingIds q ++ (hdel q.processing id).map Prod.fst ++ deadIds q := by
        simp [allIds, pendingIds, procIds, deadIds]
      rw [he, allIds]
      exact List.Sublist.append
        (List.Sublist.append (List.Sublist.refl _)
          (List.Sublist.map Prod.fst (List.filter_sublist _)))
        (List.Sublist.refl _)
    refine ⟨⟨hsub.nodup h.1, ?_⟩, fun i hi => hsub.subset hi⟩
    intro p hp
    exact h.2 p (mem_hdel _ _ _ hp)
  · have ha : q.ack id = q := by
      simp [MessageQueue.ack, hc]
    rw [ha]
    exact ⟨h, fun i hi => hi⟩

theorem qinv_nack (q : MessageQueue) (id : String) (h : QInv q) :
    QInv (q.nack id) ∧ ∀ i ∈ allIds (q.nack id), i ∈ allIds q := by
  cases hm : hget q.processing id with
  | none =>
      have ha : q.nack id = q := by
        simp [MessageQueue.nack, hm]
      rw [ha]
      exact ⟨h, fun i hi => hi⟩
  | some m =>
      have hkm : (id, m) ∈ q.processing := hget_mem _ _ _ hm
      have hid : id = m.id := h.2 _ hkm
      have hidr : id ∈ procIds q := by
        show id ∈ q.processing.map Prod.fst
        exact List.mem_map_of_mem Prod.fst hkm
      have hndr : (procIds q).Nodup := by
        have h0 : allIds q = (pendingIds q ++ procIds q) ++ deadIds q := by
          simp [allIds, List.append_assoc]
        have h1 : (pendingIds q ++ procIds q).Nodup :=
          List.Nodup.of_append_left (h0 ▸ h.1)
        exact List.Nodup.of_append_right h1
      have hpr : List.Perm (procIds q)
          (id :: (procIds q).filter (fun s => s ≠ id)) :=
        nodup_perm_filter _ _ hndr hidr
      have hmap := map_fst_hdel q.processing id
      have hqperm : List.Perm (allIds q)
          (id :: (pendingIds q ++ (procIds q).filter (fun s => s ≠ id) ++ deadIds q)) := by
        have h1 : List.Perm (allIds q)
            (pendingIds q ++ (id :: (procIds q).filter (fun s => s ≠ id)) ++ deadIds q) := by
          rw [allIds]
          exact List.Perm.append_right _ (List.Perm.append_left _ hpr)
        exact h1.trans (perm_cons_mid _ _ _ _)
      have hkeysn : KeysOk (q.nack id) ∧
          List.Perm (allIds (q.nack id))
            (id :: (pendingIds q ++ (procIds q).filter (fun s => s ≠ id) ++ deadIds q)) := by
        by_cases hc : m.retries + 1 ≥ m.max_retries
        · have ha : q.nack id =
              { q with dead_letter := q.dead_letter ++ [{ m with retries := m.retries + 1 }],
                       processing := hdel q.processing id } := by
            simp [MessageQueue.nack, hm, hc]
          constructor
          · intro p hp
            rw [ha] at hp
            exact h.2 p (mem_hdel _ _ _ hp)
          · have he : allIds (q.nack id)
                = pendingIds q ++ (procIds q).filter (fun s => s ≠ id)
                    ++ (deadIds q ++ [m.id]) := by
              rw [ha]
              simp [allIds, pendingIds, procIds, deadIds, hmap]
            rw [he, ← hid]
            exact perm_extract_right _ _ _ _
        · have ha : q.nack id =
              { q with queue := q.queue ++ [{ m with retries := m.retries + 1 }],
                       processing := hdel q.processing id } := by
            simp only [MessageQueue.nack, hm]
            rw [if_neg (by simpa using hc)]
          constructor
          · intro p hp
            rw [ha] at hp
            exact h.2 p (mem_hdel _ _ _ hp)
          · have he : allIds (q.nack id)
                = (pendingIds q ++ [m.id]) ++ (procIds q).filter (fun s => s ≠ id)
                    ++ deadIds q := by
              rw [ha]
              simp [allIds, pendingIds, procIds, deadIds, hmap]
            rw [he, ← hid]
            exact perm_extract_left _ _ _ _
      have hfull : List.Perm (allIds (q.nack id)) (allIds q) :=
        hkeysn.2.trans hqperm.symm
      exact ⟨⟨hfull.nodup_iff.mpr h.1, hkeysn.1⟩, fun i hi => hfull.mem_iff.mp hi⟩

theorem qinv_foldl (ops : List Op) : ∀ q : MessageQueue, QInv q →
    (enqIds ops).Nodup → (∀ i ∈ enqIds ops, i ∉ allIds q) →
    QInv (ops.foldl step q) ∧
    ∀ i ∈ allIds (ops.foldl step q), i ∈ allIds q ∨ i ∈ enqIds ops := by
  induction ops with
  | nil =>
      intro q h _ _
      exact ⟨h, fun i hi => Or.inl hi⟩
  | cons op rest ih =>
      intro q h hnd hfresh
      cases op with
      | enqueue m =>
          have henq : enqIds (Op.enqueue m :: rest) = m.id :: enqIds rest := by
            simp [enqIds]
          rw [henq] at hnd hfresh
          have hm : m.id ∉ allIds q := hfresh m.id (List.mem_cons_self _ _)
          have h1 := qinv_enqueue q m h hm
          have hmid : m.id ∉ enqIds rest := (List.nodup_cons.mp hnd).1
          have hfresh2 : ∀ i ∈ enqIds rest, i ∉ allIds (q.enqueue m) := by
            intro i hi hmem
            rcases h1.2 i hmem with hin | heq
            · exact hfresh i (List.mem_cons_of_mem _ hi) hin
            · exact hmid (heq ▸ hi)
          have h2 := ih (q.enqueue m) h1.1 (List.nodup_cons.mp hnd).2 hfresh2
          refine ⟨h2.1, fun i hi => ?_⟩
          rcases h2.2 i hi with hin | hin
          · rcases h1.2 i hin with h3 | h3
            · exact Or.inl h3
            · exact Or.inr (by rw [henq, h3]; exact List.mem_cons_self _ _)
          · exact Or.inr (by rw [henq]; exact List.mem_cons_of_mem _ hin)
      | dequeue =>
          have henq : enqIds (Op.dequeue :: rest) = enqIds rest := by
            simp [enqIds]
          rw [henq] at hnd hfresh
          have h1 := qinv_dequeue q h
          have hfresh2 : ∀ i ∈ enqIds rest, i ∉ allIds (q.dequeue).2 :=
            fun i hi hmem => hfresh i hi (h1.2 i hmem)
          have h2 := ih (q.dequeue).2 h1.1 hnd hfresh2
          refine ⟨h2.1, fun i hi => ?_⟩
          rcases h2.2 i hi with hin | hin
          · exact Or.inl (h1.2 i hin)
          · exact Or.inr (henq ▸ hin)
      | ack a =>
          have henq : enqIds (Op.ack a :: rest) = enqIds rest := by
            simp [enqIds]
          rw [henq] at hnd hfresh
          have h1 := qinv_ack q a h
          have hfresh2 : ∀ i ∈ enqIds rest, i ∉ allIds (q.ack a) :=
            fun i hi hmem => hfresh i hi (h1.2 i hmem)
          have h2 := ih (q.ack a) h1.1 hnd hfresh2
          refine ⟨h2.1, fun i hi => ?_⟩
          rcases h2.2 i hi with hin | hin
          · exact Or.inl (h1.2 i hin)
          · exact Or.inr (henq ▸ hin)
      | nack a =>
          have henq : enqIds (Op.nack a :: rest) = enqIds rest := by
            simp [enqIds]
          rw [henq] at hnd hfresh
          have h1 := qinv_nack q a h
          have hfresh2 : ∀ i ∈ enqIds rest, i ∉ allIds (q.nack a) :=
            fun i hi hmem => hfresh i hi (h1.2 i hmem)
          have h2 := ih (q.nack a) h1.1 hnd hfresh2
          refine ⟨h2.1, fun i hi => ?_⟩
          rcases h2.2 i hi with hin | hin
          · exact Or.inl (h1.2 i hin)
          · exact Or.inr (henq ▸ hin)

/-- C2, counterexample: the claim fails for duplicate-id enqueues. After
`enqueue msgA; dequeue; enqueue msgA2` (both messages have id "a"), the
id "a" is simultaneously in `pending` and in `processing`. -/
theorem reachable_disjoint_cex :
    "a" ∈ pendingIds (run [Op.enqueue msgA, Op.dequeue, Op.enqueue msgA2]) ∧
    "a" ∈ procIds (run [Op.enqueue msgA, Op.dequeue, Op.enqueue msgA2]) := by
  constructor
  · show "a" ∈ ["a"]
    exact List.mem_singleton.mpr rfl
  · show "a" ∈ ["a"]
    exact List.mem_singleton.mpr rfl

/-- C2, amended: in every state reachable from the empty initial state
by a sequence of enqueue/dequeue/ack/nack operations in which the
enqueued message ids are pairwise distinct, the three collections are
pairwise disjoint: no id is in more than one of `pending`, `processing`
and `dead_letter`. -/
theorem reachable_disjoint (ops : List Op) (hids : (enqIds ops).Nodup) :
    (∀ i ∈ pendingIds (run ops), i ∉ procIds (run ops)) ∧
    (∀ i ∈ pendingIds (run ops), i ∉ deadIds (run ops)) ∧
    (∀ i ∈ procIds (run ops), i ∉ deadIds (run ops)) := by
  have hinit : QInv MessageQueue.init := by
    constructor
    · show (allIds ⟨[], [], []⟩).Nodup
      simp [allIds, pendingIds, procIds, deadIds]
    · intro p hp
      simp [MessageQueue.init] at hp
  have h := qinv_foldl ops MessageQueue.init hinit hids (by
    intro i _ hmem
    simp [allIds, pendingIds, procIds, deadIds, MessageQueue.init] at hmem)
  have hnd : (allIds (run ops)).Nodup := h.1.1
  have h0 : allIds (run ops)
      = (pendingIds (run ops) ++ procIds (run ops)) ++ deadIds (run ops) := by
    simp [allIds, List.append_assoc]
  rw [h0] at hnd
  have hdisj1 := List.disjoint_of_nodup_append hnd
  have hnd2 := List.Nodup.of_append_left hnd
  have hdisj2 := List.disjoint_of_nodup_append hnd2
  exact ⟨fun i hp hr => hdisj2 hp hr,
         fun i hp hd => hdisj1 (List.mem_append_left _ hp) hd,
         fun i hr hd => hdisj1 (List.mem_append_right _ hr) hd⟩

/-- Witness for C2 on a concrete trace with distinct ids: enqueue "a"
and "h", dequeue one, nack it. -/
theorem reachable_disjoint_witness :
    (enqIds [Op.enqueue msgA, Op.enqueue msgHot, Op.dequeue, Op.nack "a"]).Nodup ∧
    ((∀ i ∈ pendingIds (run [Op.enqueue msgA, Op.enqueue msgHot, Op.dequeue, Op.nack "a"]),
        i ∉ procIds (run [Op.enqueue msgA, Op.enqueue msgHot, Op.dequeue, Op.nack "a"])) ∧
     (∀ i ∈ pendingIds (run [Op.enqueue msgA, Op.enqueue msgHot, Op.dequeue, Op.nack "a"]),
        i ∉ deadIds (run [Op.enqueue msgA, Op.enqueue msgHot, Op.dequeue, Op.nack "a"])) ∧
     (∀ i ∈ procIds (run [Op.enqueue msgA, Op.enqueue msgHot, Op.dequeue, Op.nack "a"]),
        i ∉ deadIds (run [Op.enqueue msgA, Op.enqueue msgHot, Op.dequeue, Op.nack "a"]))) :=
  ⟨by decide, reachable_disjoint _ (by decide)⟩

theorem mem_hset (l : List (String × Message)) (k : String) (v : Message)
    (p : String × Message) (h : p ∈ hset l k v) : p ∈ l ∨ p = (k, v) := by
  rw [hset] at h
  by_cases hc : l.any (fun p => p.1 = k)
  · rw [if_pos hc] at h
    rcases List.mem_map.mp h with ⟨p0, hp0, he⟩
    by_cases h0 : p0.1 = k
    · rw [if_pos h0] at he
      exact Or.inr he.symm
    · rw [if_neg h0] at he
      exact Or.inl (he ▸ hp0)
  · rw [if_neg hc] at h
    rcases List.mem_append.mp h with hin | hin
    · exact Or.inl hin
    · exact Or.inr (by simpa using hin)

/-- The inductive invariant behind the retry bound: every pending or
checked-out message still has retries strictly below its budget, and
every dead-lettered message has exactly exhausted it. -/
def RetriesOk (q : MessageQueue) : Prop :=
  (∀ m ∈ q.queue, m.retries < m.max_retries) ∧
  (∀ p ∈ q.processing, p.2.retries < p.2.max_retries) ∧
  (∀ m ∈ q.dead_letter, m.retries = m.max_retries)

theorem retriesOk_step (q : MessageQueue) (op : Op) (h : RetriesOk q)
    (henq : ∀ m, op = Op.enqueue m → m.retries < m.max_retries) :
    RetriesOk (step q op) := by
  cases op with
  | enqueue m =>
      refine ⟨?_, h.2.1, h.2.2⟩
      intro x hx
      rcases List.mem_append.mp hx with hin | hin
      · exact h.1 x hin
      · have : x = m := by simpa using hin
        exact this ▸ henq m rfl
  | dequeue =>
      obtain ⟨qu, pr, dl⟩ := q
      cases qu with
      | nil => exact h
      | cons m rest =>
          refine ⟨fun x hx => h.1 x (List.mem_cons_of_mem _ hx), ?_, h.2.2⟩
          intro p hp
          rcases mem_hset pr m.id m p hp with hin | he
          · exact h.2.1 p hin
          · rw [he]
            exact h.1 m (List.mem_cons_self _ _)
  | ack a =>
      by_cases hc : (hget q.processing a).isSome
      · have ha : q.ack a = { q with processing := hdel q.processing a } := by
          simp [MessageQueue.ack, hc]
        show RetriesOk (q.ack a)
        rw [ha]
        exact ⟨h.1, fun p hp => h.2.1 p (mem_hdel _ _ _ hp), h.2.2⟩
      · have ha : q.ack a = q := by
          simp [MessageQueue.ack, hc]
        show RetriesOk (q.ack a)
        rw [ha]
        exact h
  | nack a =>
      show RetriesOk (q.nack a)
      cases hm : hget q.processing a with
      | none =>
          have ha : q.nack a = q := by
            simp [MessageQueue.nack, hm]
          rw [ha]
          exact h
      | some m =>
          have hlt : m.retries < m.max_retries :=
            h.2.1 (a, m) (hget_mem _ _ _ hm)
          by_cases hc : m.retries + 1 ≥ m.max_retries
          · have ha : q.nack a =
                { q with dead_letter := q.dead_letter ++ [{ m with retries := m.retries + 1 }],
                         processing := hdel q.processing a } := by
              simp [MessageQueue.nack, hm, hc]
            rw [ha]
            refine ⟨h.1, fun p hp => h.2.1 p (mem_hdel _ _ _ hp), ?_⟩
            intro x hx
            rcases List.mem_append.mp hx with hin | hin
            · exact h.2.2 x hin
            · have hxe : x = { m with retries := m.retries + 1 } := by simpa using hin
              rw [hxe]
              show m.retries + 1 = m.max_retries
              omega
          · have ha : q.nack a =
                { q with queue := q.queue ++ [{ m with retries := m.retries + 1 }],
                         processing := hdel q.processing a } := by
              simp only [MessageQueue.nack, hm]
              rw [if_neg (by simpa using hc)]
            rw [ha]
            refine ⟨?_, fun p hp => h.2.1 p (mem_hdel _ _ _ hp), h.2.2⟩
            intro x hx
            rcases List.mem_append.mp hx with hin | hin
            · exact h.1 x hin
            · have hxe : x = { m with retries := m.retries + 1 } := by simpa using hin
              rw [hxe]
              show m.retries + 1 < m.max_retries
              omega

theorem retriesOk_foldl (ops : List Op) : ∀ q : MessageQueue, RetriesOk q →
    (∀ m, Op.enqueue m ∈ ops → m.retries < m.max_retries) →
    RetriesOk (ops.foldl step q) := by
  induction ops with
  | nil => intro q h _; exact h
  | cons op rest ih =>
      intro q h henq
      exact ih (step q op)
        (retriesOk_step q op h
          (fun m he => henq m (he ▸ List.mem_cons_self _ _)))
        (fun m hm => henq m (List.mem_cons_of_mem _ hm))

/-- C4, counterexample: the claim fails when a message is enqueued with
`retries` already above `max_retries`. Enqueuing `msgHot` (retries 5,
max_retries 3) puts a message with retries > max_retries into pending,
and nacking it dead-letters it with retries 6 ≠ max_retries 3, so
dead-lettering does not happen at `retries == max_retries`. -/
theorem retries_bound_cex :
    (run [Op.enqueue msgHot]).queue = [msgHot] ∧
    msgHot.max_retries < msgHot.retries ∧
    deadIds (run [Op.enqueue msgHot, Op.dequeue, Op.nack "h"]) = ["h"] ∧
    ((run [Op.enqueue msgHot, Op.dequeue, Op.nack "h"]).dead_letter.map
        Message.retries = [6]) ∧
    ((run [Op.enqueue msgHot, Op.dequeue, Op.nack "h"]).dead_letter.map
        Message.max_retries = [3]) :=
  ⟨rfl, by decide, rfl, rfl, rfl⟩

/-- C4, amended: for every operation sequence whose enqueued messages
all start with `retries < max_retries`, every message in the reachable
state has `retries ≤ max_retries`; messages still in pending or
processing are strictly below the budget, and a message is in
`dead_letter` exactly with `retries = max_retries` (the value reached by
the final `nack`). -/
theorem retries_bound (ops : List Op)
    (henq : ∀ m, Op.enqueue m ∈ ops → m.retries < m.max_retries) :
    (∀ m ∈ (run ops).queue, m.retries < m.max_retries) ∧
    (∀ p ∈ (run ops).processing, p.2.retries < p.2.max_retries) ∧
    (∀ m ∈ (run ops).dead_letter, m.retries = m.max_retries) ∧
    (∀ m ∈ (run ops).queue, m.retries ≤ m.max_retries) ∧
    (∀ m ∈ (run ops).dead_letter, m.retries ≤ m.max_retries) := by
  have hinit : RetriesOk MessageQueue.init := by
    refine ⟨?_, ?_, ?_⟩ <;> intro x hx <;> simp [MessageQueue.init] at hx
  have h := retriesOk_foldl ops MessageQueue.init hinit henq
  exact ⟨h.1, h.2.1, h.2.2,
         fun m hm => le_of_lt (h.1 m hm),
         fun m hm => le_of_eq (h.2.2 m hm)⟩

/-- Witness for C4 on a concrete trace: enqueue a fresh message, check
it out and nack it three times in a row through re-dequeues. -/
theorem retries_bound_witness :
    (∀ m, Op.enqueue m ∈ [Op.enqueue msgA, Op.dequeue, Op.nack "a", Op.dequeue,
        Op.nack "a", Op.dequeue, Op.nack "a"] → m.retries < m.max_retries) ∧
    (∀ m ∈ (run [Op.enqueue msgA, Op.dequeue, Op.nack "a", Op.dequeue,
        Op.nack "a", Op.dequeue, Op.nack "a"]).dead_letter,
      m.retries = m.max_retries) := by
  have hpre : ∀ m, Op.enqueue m ∈ [Op.enqueue msgA, Op.dequeue, Op.nack "a",
      Op.dequeue, Op.nack "a", Op.dequeue, Op.nack "a"] →
      m.retries < m.max_retries := by
    intro m hm
    simp only [List.mem_cons, List.not_mem_nil, or_false] at hm
    rcases hm with he | he | he | he | he | he | he <;>
      first
        | (injection he with he2; rw [he2]; decide)
        | exact absurd he (by intro hc; cases hc)
  exact ⟨hpre, (retries_bound _ hpre).2.2.1⟩

/-!
The batch processor of `src/adaptive_smol_processor.py`
(`AdaptiveProcessor.process_batch`, lines 141-158) and its twin
`SelfImprovingProcessor.process_batch` in
`src/advanced_adaptive_processor.py` (lines 178-193): messages are cut
into chunks of at most `concurrent_limit`, each chunk is gathered with
`asyncio.gather(..., return_exceptions=True)` so every member yields
exactly one outcome, and the per-message boolean outcomes are tallied.
The outcome of `process_message` (whose simulated randomness is external
to the tally) is abstracted as a boolean-valued handler.
-/

/-- The chunking performed by `for i in range(0, len(messages), limit)`
with slice `messages[i:i+limit]`, for `limit ≥ 1`. -/
def chunkList {α : Type} (limit : Nat) : List α → List (List α)
  | [] => []
  | x :: xs =>
      (x :: List.take (limit - 1) xs) :: chunkList limit (List.drop (limit - 1) xs)
termination_by l => l.length
decreasing_by
  simp only [List.length_drop, List.length_cons]
  omega

/-- `process_batch`: tally `(processed, failed)` over the chunks; a
`true` outcome increments `processed`, anything else `failed`. -/
def process_batch {α : Type} (limit : Nat) (handler : α → Bool)
    (messages : List α) : Nat × Nat :=
  (chunkList limit messages).foldl
    (fun acc chunk =>
      chunk.foldl
        (fun acc2 msg =>
          if handler msg then (acc2.1 + 1, acc2.2) else (acc2.1, acc2.2 + 1))
        acc)
    (0, 0)

theorem chunkList_flatten_aux {α : Type} (limit : Nat) :
    ∀ (n : Nat) (l : List α), l.length ≤ n → (chunkList limit l).flatten = l := by
  intro n
  induction n with
  | zero =>
      intro l h
      cases l with
      | nil => simp [chunkList]
      | cons x xs => simp at h
  | succ n ih =>
      intro l h
      cases l with
      | nil => simp [chunkList]
      | cons x xs =>
          rw [chunkList]
          have hlen : (List.drop (limit - 1) xs).length ≤ n := by
            simp only [List.length_drop]
            simp only [List.length_cons] at h
            omega
          simp [ih _ hlen, List.take_append_drop]

theorem chunkList_flatten {α : Type} (limit : Nat) (l : List α) :
    (chunkList limit l).flatten = l :=
  chunkList_flatten_aux limit l.length l le_rfl

theorem chunkList_length_le_aux {α : Type} (limit : Nat) (hl : 0 < limit) :
    ∀ (n : Nat) (l : List α), l.length ≤ n →
      ∀ c ∈ chunkList limit l, c.length ≤ limit := by
  intro n
  induction n with
  | zero =>
      intro l h
      cases l with
      | nil => simp [chunkList]
      | cons x xs => simp at h
  | succ n ih =>
      intro l h
      cases l with
      | nil => simp [chunkList]
      | cons x xs =>
          rw [chunkList]
          intro c hc
          rcases List.mem_cons.mp hc with rfl | hin
          · simp only [List.length_cons, List.length_take]
            omega
          · have hlen : (List.drop (limit - 1) xs).length ≤ n := by
              simp only [List.length_drop]
              simp only [List.length_cons] at h
              omega
            exact ih (List.drop (limit - 1) xs) hlen c hin

theorem chunkList_length_le {α : Type} (limit : Nat) (hl : 0 < limit)
    (l : List α) : ∀ c ∈ chunkList limit l, c.length ≤ limit :=
  chunkList_length_le_aux limit hl l.length l le_rfl

theorem tally_foldl_sum {α : Type} (handler : α → Bool) (l : List α) :
    ∀ acc : Nat × Nat,
      (l.foldl
        (fun acc2 msg =>
          if handler msg then (acc2.1 + 1, acc2.2) else (acc2.1, acc2.2 + 1))
        acc).1 +
      (l.foldl
        (fun acc2 msg =>
          if handler msg then (acc2.1 + 1, acc2.2) else (acc2.1, acc2.2 + 1))
        acc).2 = acc.1 + acc.2 + l.length := by
  induction l with
  | nil => intro acc; simp
  | cons x xs ih =>
      intro acc
      simp only [List.foldl_cons]
      cases hx : handler x
      · rw [if_neg Bool.false_ne_true, ih]
        simp only [List.length_cons]
        omega
      · rw [if_pos rfl, ih]
        simp only [List.length_cons]
        omega

theorem tally_foldl_all_true {α : Type} (handler : α → Bool) (l : List α)
    (h : ∀ m ∈ l, handler m = true) :
    ∀ acc : Nat × Nat,
      l.foldl
        (fun acc2 msg =>
          if handler msg then (acc2.1 + 1, acc2.2) else (acc2.1, acc2.2 + 1))
        acc = (acc.1 + l.length, acc.2) := by
  induction l with
  | nil => intro acc; simp
  | cons x xs ih =>
      intro acc
      have hx : handler x = true := h x (List.mem_cons_self _ _)
      simp only [List.foldl_cons]
      rw [hx, if_pos rfl, ih (fun m hm => h m (List.mem_cons_of_mem _ hm))]
      have harith : acc.1 + 1 + xs.length = acc.1 + (x :: xs).length := by
        simp only [List.length_cons]
        omega
      rw [harith]

theorem process_batch_eq_foldl {α : Type} (limit : Nat) (handler : α → Bool)
    (messages : List α) :
    process_batch limit handler messages =
      messages.foldl
        (fun acc2 msg =>
          if handler msg then (acc2.1 + 1, acc2.2) else (acc2.1, acc2.2 + 1))
        (0, 0) := by
  rw [process_batch, ← List.foldl_flatten, chunkList_flatten]

/-- C7: `process_batch` tallies every message exactly once —
`processed + failed` equals the batch length for every handler, a
failing handler never suppresses the outcomes of its chunk siblings
(each message of each chunk contributes exactly one outcome and chunks
have size at most `concurrent_limit`), and an always-succeeding handler
yields `(length, 0)`; in particular 10 messages give `(10, 0)`. -/
theorem process_batch_spec {α : Type} (limit : Nat) (handler : α → Bool)
    (messages : List α) (hl : 0 < limit) :
    (process_batch limit handler messages).1 +
      (process_batch limit handler messages).2 = messages.length ∧
    (∀ c ∈ chunkList limit messages, c.length ≤ limit) ∧
    ((∀ m ∈ messages, handler m = true) →
      process_batch limit handler messages = (messages.length, 0)) := by
  refine ⟨?_, chunkList_length_le limit hl messages, ?_⟩
  · rw [process_batch_eq_foldl]
    simpa using tally_foldl_sum handler messages (0, 0)
  · intro h
    rw [process_batch_eq_foldl]
    simpa using tally_foldl_all_true handler messages h (0, 0)

/-- Witness for C7: a batch of 10 messages with `concurrent_limit = 4`
and an always-succeeding handler gives `processed = 10`, `failed = 0`. -/
theorem process_batch_spec_witness :
    (0 : Nat) < 4 ∧
    process_batch 4 (fun _ => true)
      ["m0", "m1", "m2", "m3", "m4", "m5", "m6", "m7", "m8", "m9"] = (10, 0) :=
  ⟨by decide,
    (process_batch_spec 4 (fun _ => true)
      ["m0", "m1", "m2", "m3", "m4", "m5", "m6", "m7", "m8", "m9"]
      (by decide)).2.2 (fun m _ => rfl)⟩

/-!
The adaptive controller of `src/adaptive_smol_processor.py`.
`ProcessingMetrics` (lines 13-20) and the parameter block mutated by
`AdaptiveProcessor._optimize_processing_params` (lines 100-118) are
embedded with `Rat` for Python floats. `update_metrics` (lines 70-98)
draws quality, reliability and throughput from `random.uniform`; those
draws are passed in as explicit sample arguments `qs`, `rs`, `ts`.
-/

/-- The `ProcessingMetrics` dataclass. -/
structure ProcessingMetrics where
  quality : Rat
  reliability : Rat
  throughput : Rat
  chaos_score : Rat
  error_count : Nat
  recovery_attempts : Nat

/-- The three parameters mutated by `_optimize_processing_params`:
`processing_window` (init 0.1), `batch_size` (init 10) and
`concurrent_limit` (init 5). -/
structure ControlParams where
  processing_window : Rat
  batch_size : Int
  concurrent_limit : Int

/-- The `AdaptiveProcessor.__init__` values of the three parameters. -/
def initControlParams : ControlParams :=
  { processing_window := 1/10, batch_size := 10, concurrent_limit := 5 }

/-- `AdaptiveProcessor._optimize_processing_params` (lines 100-118):
window shrinks by 10% (floor 0.05) on low throughput, else grows by 10%
(ceiling 0.2) on error_count > 2; batch_size moves by ±2 within [5, 20]
on reliability; concurrent_limit moves by ±1 within [3, 10] on quality. -/
def optimize_processing_params (p : ControlParams) (m : ProcessingMetrics) :
    ControlParams :=
  let w := if m.throughput < 1/5 then max (1/20) (p.processing_window * (9/10))
           else if m.error_count > 2 then min (1/5) (p.processing_window * (11/10))
           else p.processing_window
  let b := if m.reliability > 17/20 then min 20 (p.batch_size + 2)
           else if m.reliability < 7/10 then max 5 (p.batch_size - 2)
           else p.batch_size
  let c := if m.quality > 3/4 then min 10 (p.concurrent_limit + 1)
           else if m.quality < 13/20 then max 3 (p.concurrent_limit - 1)
           else p.concurrent_limit
  { processing_window := w, batch_size := b, concurrent_limit := c }

/-- `AdaptiveProcessor.update_metrics` (lines 70-98): records the three
`random.uniform` draws (`qs` from [0.6,0.8], `rs` from [0.7,0.9], `ts`
from [0.15,0.25]) as quality/reliability/throughput — not any function
of the counts — sets error_count and recovery_attempts to `failed`,
computes `error_rate = failed/(processed+failed)` (0 when the total is
0) for the visualizer, and optimizes the parameters. Returns the
recorded metrics, the error rate and the new parameters. -/
def update_metrics (p : ControlParams) (qs rs ts : Rat)
    (processed failed : Nat) : ProcessingMetrics × Rat × ControlParams :=
  let error_rate : Rat :=
    if processed + failed > 0 then
      (failed : Rat) / ((processed : Rat) + (failed : Rat))
    else 0
  let metrics : ProcessingMetrics :=
    { quality := qs, reliability := rs, throughput := ts,
      chaos_score := 0, error_count := failed, recovery_attempts := failed }
  (metrics, error_rate, optimize_processing_params p metrics)

/-- The `ProcessingState` of `src/advanced_adaptive_processor.py`
(lines 14-23), restricted to the fields written by `process_batch`. -/
structure ProcessingState where
  quality : Rat
  reliability : Rat
  throughput : Rat
  complexity : Rat
  creativity_score : Rat

/-- The state update at the end of
`SelfImprovingProcessor.process_batch` (lines 195-200): when
`total = processed + failed > 0`, quality becomes `processed/total`,
reliability `max 0 (1 - failed/total)`, throughput
`processed/(processing_window * len(messages))`; otherwise the state is
left unchanged. -/
def state_update_after_batch (st : ProcessingState) (window : Rat)
    (nMessages processed failed : Nat) : ProcessingState :=
  let total := processed + failed
  if total > 0 then
    { st with
        quality := (processed : Rat) / (total : Rat),
        reliability := max 0 (1 - (failed : Rat) / (total : Rat)),
        throughput := (processed : Rat) / (window * (nMessages : Rat)) }
  else st

/-- C8, counterexample: `update_metrics` does not compute
`quality = processed/(processed+failed)`. With the legal uniform draws
`qs = 0.7`, `rs = 0.8`, `ts = 0.2` and a cycle of `processed = 10`,
`failed = 0`, the recorded quality is 0.7 while the claimed formula
gives 1. -/
theorem update_metrics_cex :
    ((3/5 : Rat) ≤ 7/10 ∧ (7/10 : Rat) ≤ 4/5) ∧
    (update_metrics initControlParams (7/10) (4/5) (1/5) 10 0).1.quality = 7/10 ∧
    (10 : Rat) / ((10 : Rat) + (0 : Rat)) = 1 ∧
    (update_metrics initControlParams (7/10) (4/5) (1/5) 10 0).1.quality ≠
      (10 : Rat) / ((10 : Rat) + (0 : Rat)) := by
  refine ⟨⟨by norm_num, by norm_num⟩, rfl, by norm_num, ?_⟩
  intro hc
  rw [show (update_metrics initControlParams (7/10) (4/5) (1/5) 10 0).1.quality
      = (7/10 : Rat) from rfl] at hc
  norm_num at hc

/-- C8, amended: `AdaptiveProcessor.update_metrics` records the random
draws themselves as quality/reliability/throughput, independent of the
counts, and only its `error_rate` is count-derived:
`failed/(processed+failed)`, 0 on an empty cycle. The claimed formulas
hold instead of the state written by
`SelfImprovingProcessor.process_batch`: on a cycle with
`processed + failed > 0` it records `quality = processed/total`,
`reliability = 1 - failed/total` and
`throughput = processed/(processing_window * n)`; an empty cycle leaves
the state unchanged. -/
theorem metrics_formulas (p : ControlParams) (qs rs ts window : Rat)
    (processed failed n : Nat) (st : ProcessingState) :
    (update_metrics p qs rs ts processed failed).1.quality = qs ∧
    (update_metrics p qs rs ts processed failed).1.reliability = rs ∧
    (update_metrics p qs rs ts processed failed).1.throughput = ts ∧
    (update_metrics p qs rs ts processed failed).2.1 =
      (if 0 < processed + failed then
        (failed : Rat) / ((processed : Rat) + (failed : Rat)) else 0) ∧
    (0 < processed + failed →
      (state_update_after_batch st window n processed failed).quality =
        (processed : Rat) / ((processed : Rat) + (failed : Rat)) ∧
      (state_update_after_batch st window n processed failed).reliability =
        1 - (failed : Rat) / ((processed : Rat) + (failed : Rat)) ∧
      (state_update_after_batch st window n processed failed).throughput =
        (processed : Rat) / (window * (n : Rat))) ∧
    (processed + failed = 0 →
      state_update_after_batch st window n processed failed = st) := by
  refine ⟨rfl, rfl, rfl, rfl, ?_, ?_⟩
  · intro htot
    have hcast : ((processed + failed : Nat) : Rat)
        = (processed : Rat) + (failed : Rat) := by push_cast; ring
    have hpos : (0 : Rat) < ((processed + failed : Nat) : Rat) := by
      exact_mod_cast htot
    have hdiv_le : (failed : Rat) / ((processed : Rat) + (failed : Rat)) ≤ 1 := by
      rw [div_le_one (by rw [← hcast] at *; exact hpos)]
      have : (failed : Rat) ≤ (processed : Rat) + (failed : Rat) := by
        have : (0 : Rat) ≤ (processed : Rat) := by positivity
        linarith
      exact this
    have hnonneg : (0 : Rat) ≤ 1 - (failed : Rat) / ((processed : Rat) + (failed : Rat)) := by
      linarith
    refine ⟨?_, ?_, ?_⟩
    · rw [state_update_after_batch, if_pos htot, hcast]
    · rw [state_update_after_batch, if_pos htot]
      show max 0 (1 - (failed : Rat) / (((processed + failed : Nat) : Rat))) = _
      rw [hcast, max_eq_right hnonneg]
    · rw [state_update_after_batch, if_pos htot]
  · intro htot
    rw [state_update_after_batch, if_neg (by omega)]

/-- Witness for C8: a concrete cycle with `processed = 3`, `failed = 1`
through both processors' metric updates. -/
theorem metrics_formulas_witness :
    (update_metrics initControlParams (7/10) (4/5) (1/5) 3 1).1.quality = 7/10 ∧
    (update_metrics initControlParams (7/10) (4/5) (1/5) 3 1).2.1 = 1/4 ∧
    (state_update_after_batch ⟨0, 0, 0, 0, 0⟩ (1/10) 4 3 1).quality = 3/4 ∧
    (state_update_after_batch ⟨0, 0, 0, 0, 0⟩ (1/10) 4 3 1).reliability = 3/4 ∧
    (state_update_after_batch ⟨0, 0, 0, 0, 0⟩ (1/10) 4 3 1).throughput = 15/2 := by
  have h := metrics_formulas initControlParams (7/10) (4/5) (1/5) (1/10) 3 1 4
    ⟨0, 0, 0, 0, 0⟩
  have h5 := h.2.2.2.2.1 (by omega)
  refine ⟨h.1, ?_, ?_, ?_, ?_⟩
  · rw [h.2.2.2.1]
    norm_num
  · rw [h5.1]
    norm_num
  · rw [h5.2.1]
    norm_num
  · rw [h5.2.2]
    norm_num

/-- C9: one `_optimize_processing_params` step on a cycle with
`reliability = 0.9`, `quality = 0.8`, `throughput = 0.1` and
`error_count ≤ 2` maps, for every starting parameters: batch_size to
`min 20 (batch_size + 2)` (+2 capped at 20), concurrent_limit to
`min 10 (concurrent_limit + 1)` (+1 capped at 10) and processing_window
to `max 0.05 (0.9 * processing_window)` (−10% floored at 0.05). -/
theorem optimize_params_scenario (p : ControlParams) (m : ProcessingMetrics)
    (hr : m.reliability = 9/10) (hq : m.quality = 4/5)
    (ht : m.throughput = 1/10) (he : m.error_count ≤ 2) :
    (optimize_processing_params p m).batch_size = min 20 (p.batch_size + 2) ∧
    (optimize_processing_params p m).concurrent_limit
      = min 10 (p.concurrent_limit + 1) ∧
    (optimize_processing_params p m).processing_window
      = max (1/20) (p.processing_window * (9/10)) := by
  rw [optimize_processing_params]
  rw [if_pos (show m.throughput < 1/5 by rw [ht]; norm_num),
      if_pos (show m.reliability > 17/20 by rw [hr]; norm_num),
      if_pos (show m.quality > 3/4 by rw [hq]; norm_num)]
  exact ⟨rfl, rfl, rfl⟩

/-- Witness for C9: from the initial parameters (window 0.1, batch 10,
concurrency 5), the scenario cycle yields batch 12, concurrency 6,
window 0.09. -/
theorem optimize_params_scenario_witness :
    (optimize_processing_params initControlParams
        ⟨4/5, 9/10, 1/10, 0, 0, 0⟩).batch_size = 12 ∧
    (optimize_processing_params initControlParams
        ⟨4/5, 9/10, 1/10, 0, 0, 0⟩).concurrent_limit = 6 ∧
    (optimize_processing_params initControlParams
        ⟨4/5, 9/10, 1/10, 0, 0, 0⟩).processing_window = 9/100 := by
  have h := optimize_params_scenario initControlParams
    ⟨4/5, 9/10, 1/10, 0, 0, 0⟩ rfl rfl rfl (by decide)
  refine ⟨?_, ?_, ?_⟩
  · rw [h.1]
    decide
  · rw [h.2.1]
    decide
  · rw [h.2.2]
    show max (1/20 : Rat) ((1/10) * (9/10)) = 9/100
    norm_num

/-!
Message wire serialization, from `src/redis_message_queue.py`
(lines 20-29). `to_json` renders the dataclass dict with the timestamp
replaced by its `isoformat` string; `from_json` parses it back and
re-parses the timestamp with `fromisoformat` (the exact inverse of
`isoformat`). The five-key JSON object shape mirrors `asdict` field
order; `from_json` requires exactly that shape, as `cls(**data)` does.
-/

/-- `Message.to_json` (lines 26-29). -/
def Message.to_json (m : Message) : Json :=
  .obj [("id", .str m.id), ("payload", m.payload),
        ("timestamp", .str m.timestamp), ("retries", .num m.retries),
        ("max_retries", .num m.max_retries)]

/-- `Message.from_json` (lines 20-24). -/
def Message.from_json : Json → Option Message
  | .obj [("id", .str i), ("payload", p), ("timestamp", .str ts),
          ("retries", .num r), ("max_retries", .num mr)] =>
      some { id := i, payload := p, timestamp := ts,
             retries := r, max_retries := mr }
  | _ => none

/-- C10: serialization round-trips — `from_json (to_json m)` recovers
`m` in all five fields, for every message whose payload is a JSON
value. -/
theorem from_json_to_json (m : Message) :
    Message.from_json (Message.to_json m) = some m := rfl
